import Mathlib

/-!
Shallow embedding of `src/skipgram.py`: a SkipGram word-embedding model with
negative sampling (`SkipGramNeg`) and its loss function (`NegativeSamplingLoss`).
Tensors are embedded as nested lists of reals; the torch primitives the code
uses (`sigmoid`, elementwise `*`, `sum(dim=1)`, `bmm`, `unsqueeze`/`squeeze`,
`mean`, `nn.Embedding` lookup, `multinomial` with replacement, `view`) are
each given a faithful list-level definition, and the two modules' methods are
built from them exactly as in the source.
-/

namespace SkipGram

abbrev Vec := List ℝ
abbrev Mat := List Vec
abbrev Mat3 := List Mat

/-- `torch.sigmoid(x) = 1 / (1 + exp(-x))`. -/
noncomputable def sigmoid (x : ℝ) : ℝ := 1 / (1 + Real.exp (-x))

/-- The literal `1e-10` added inside the logarithms of the loss. -/
noncomputable def eps : ℝ := 1e-10

/-- Dot product of two vectors. -/
def dot (v w : Vec) : ℝ := (List.zipWith (· * ·) v w).sum

/-- Elementwise product of two 2-D tensors (`input_vectors * output_vectors`). -/
def tmul (a b : Mat) : Mat := List.zipWith (List.zipWith (· * ·)) a b

/-- `torch.sum(·, dim=1)` on a 2-D tensor: sum each row. -/
def sumdim1 (a : Mat) : Vec := a.map List.sum

/-- `.unsqueeze(2)` on a `(B, E)` tensor, giving shape `(B, E, 1)`. -/
def unsqueeze2 (a : Mat) : Mat3 := a.map (fun r => r.map (fun x => [x]))

/-- Number of columns of a 2-D tensor (length of its first row). -/
def ncols (m : Mat) : ℕ := (m.headD []).length

/-- Column `j` of a 2-D tensor. -/
def col (m : Mat) (j : ℕ) : Vec := m.map (fun r => r.getD j 0)

/-- 2-D matrix product: entry `(i, j)` is `dot (row i of A) (col j of B)`. -/
def matmul (A B : Mat) : Mat :=
  A.map (fun ar => (List.range (ncols B)).map (fun j => dot ar (col B j)))

/-- `torch.bmm`: batched matrix product of two 3-D tensors. -/
def bmm (A B : Mat3) : Mat3 := List.zipWith matmul A B

/-- `.squeeze(2)` on a `(B, S, 1)` tensor, giving shape `(B, S)`. -/
def squeeze2 (a : Mat3) : Mat := a.map (fun r => r.map (fun x => x.headD 0))

/-- `torch.mean` of a 1-D tensor: sum divided by number of elements. -/
noncomputable def tmean (v : Vec) : ℝ := v.sum / v.length

/-- The per-score contribution `torch.log(torch.sigmoid(x) + 1e-10)` used for
both the positive and (with negated argument) the negative scores. -/
noncomputable def logSigEps (x : ℝ) : ℝ := Real.log (sigmoid x + eps)

/-- `NegativeSamplingLoss.forward` (src/skipgram.py lines 109-143):
`pos_scores = torch.sum(input_vectors * output_vectors, dim=1)`;
`neg_scores = torch.bmm(noise_vectors, input_vectors.unsqueeze(2)).squeeze(2)`;
`pos_loss = torch.log(torch.sigmoid(pos_scores) + 1e-10)`;
`neg_loss = torch.sum(torch.log(torch.sigmoid(-neg_scores) + 1e-10), dim=1)`;
returns `-torch.mean(pos_loss + neg_loss)`. -/
noncomputable def nslForward (input_vectors output_vectors : Mat) (noise_vectors : Mat3) : ℝ :=
  let pos_scores := sumdim1 (tmul input_vectors output_vectors)
  let neg_scores := squeeze2 (bmm noise_vectors (unsqueeze2 input_vectors))
  let pos_loss := pos_scores.map logSigEps
  let neg_loss := sumdim1 (neg_scores.map (fun r => r.map (fun x => logSigEps (-x))));
  -(tmean (List.zipWith (· + ·) pos_loss neg_loss))

/-- The `SkipGramNeg` module state: vocabulary size, embedding size, the
optional noise distribution (`noise_dist=None` in Python is `Option.none`),
and the weight tables of the two `nn.Embedding` layers, each a list of
`n_vocab` rows of length `n_embed`. -/
structure SkipGramNeg where
  n_vocab : ℕ
  n_embed : ℕ
  noise_dist : Option Vec
  in_embed : Mat
  out_embed : Mat

/-- Application of an `nn.Embedding` layer with weight table `weight` to a
batch of word indices: the library raises (here: `none`) when some index is
out of range, and otherwise returns the corresponding rows of the table. -/
def embedLookup (weight : Mat) (words : List ℕ) : Option Mat :=
  if words.all (fun w => w < weight.length) then
    some (words.map (fun w => weight.getD w []))
  else none

/-- One inverse-CDF draw from a weight vector given a point `u` of `[0, total)`:
walk the weights, subtracting each from `u`, until `u` falls below the current
weight; the index reached is the sampled one. This is the semantics of a
single `torch.multinomial` draw when `u` is uniform on `[0, total)`. -/
noncomputable def invCDF (u : ℝ) : Vec → ℕ
  | [] => 0
  | x :: rest => if u < x then 0 else invCDF (u - x) rest + 1

/-- `torch.multinomial(w, n, replacement=True)`: `n` independent draws from
the same full weight vector `w`, the `k`-th using the `k`-th uniform random
point `ω k` of the entropy stream. -/
noncomputable def multinomial (w : Vec) (n : ℕ) (ω : ℕ → ℝ) : List ℕ :=
  (List.range n).map (fun k => invCDF (ω k) w)

/-- Row-major regrouping of a `(B*S, E)` tensor of rows into shape `(B, S, E)`. -/
def reshape3 (rows : Mat) (B S : ℕ) : Mat3 :=
  (List.range B).map (fun b => (List.range S).map (fun s => rows.getD (b * S + s) []))

/-- `.view(B, S, E)` on a 2-D tensor of rows: the library raises (here:
`none`) unless there are exactly `B*S` rows of length `E`; otherwise the rows
are regrouped row-major into shape `(B, S, E)`. -/
def view3 (rows : Mat) (B S E : ℕ) : Option Mat3 :=
  if rows.length = B * S ∧ rows.all (fun r => r.length = E) then
    some (reshape3 rows B S)
  else none

/-- `SkipGramNeg.forward_input`: `input_vectors = self.in_embed(input_words)`;
the method reassigns no field of `self`, so the state it leaves behind is the
one it received. -/
def SkipGramNeg.forward_input (m : SkipGramNeg) (input_words : List ℕ) :
    Option Mat × SkipGramNeg :=
  (embedLookup m.in_embed input_words, m)

/-- `SkipGramNeg.forward_output`: `output_vectors = self.out_embed(output_words)`;
no field of `self` is reassigned. -/
def SkipGramNeg.forward_output (m : SkipGramNeg) (output_words : List ℕ) :
    Option Mat × SkipGramNeg :=
  (embedLookup m.out_embed output_words, m)

/-- The local `noise_dist` bound at the start of `forward_noise`:
`torch.ones(self.n_vocab)` when `self.noise_dist is None`, else
`self.noise_dist`. -/
def SkipGramNeg.effectiveNoiseDist (m : SkipGramNeg) : Vec :=
  match m.noise_dist with
  | none => List.replicate m.n_vocab 1
  | some d => d

/-- `SkipGramNeg.forward_noise` (src/skipgram.py lines 67-92): bind the local
`noise_dist`, draw `batch_size*n_samples` word indices with
`torch.multinomial(noise_dist, batch_size*n_samples, replacement=True)`, look
the indices up in `self.out_embed` (the `.to(device)` move does not change the
indices), and `.view(batch_size, n_samples, self.n_embed)` the resulting rows.
No field of `self` is reassigned (the local `noise_dist` shadows the
attribute), so the state left behind is the one received. -/
noncomputable def SkipGramNeg.forward_noise (m : SkipGramNeg)
    (batch_size n_samples : ℕ) (ω : ℕ → ℝ) : Option Mat3 × SkipGramNeg :=
  let noise_dist := m.effectiveNoiseDist
  let noise_words := multinomial noise_dist (batch_size * n_samples) ω
  ((embedLookup m.out_embed noise_words).bind
      (fun rows => view3 rows batch_size n_samples m.n_embed), m)

/-- The `NegativeSamplingLoss` module: it holds no state of its own. -/
structure NegativeSamplingLoss where

/-- `NegativeSamplingLoss.forward` as a method: the loss value together with
the (unchanged) module state. -/
noncomputable def NegativeSamplingLoss.forward (l : NegativeSamplingLoss)
    (input_vectors output_vectors : Mat) (noise_vectors : Mat3) :
    ℝ × NegativeSamplingLoss :=
  (nslForward input_vectors output_vectors noise_vectors, l)

/-- The shape validation the numeric library performs on the loss's inputs:
`input_vectors` and `output_vectors` of one common shape `(B, E)` and
`noise_vectors` of shape `(B, S, E)`; on any mismatch the library raises
(here: `none`). -/
noncomputable def nslForwardChecked (input_vectors output_vectors : Mat)
    (noise_vectors : Mat3) : Option ℝ :=
  let B := input_vectors.length
  let E := (input_vectors.headD []).length
  let S := (noise_vectors.headD []).length
  if (input_vectors.all (fun r => r.length = E)
      ∧ output_vectors.length = B ∧ output_vectors.all (fun r => r.length = E)
      ∧ noise_vectors.length = B
      ∧ noise_vectors.all (fun nb => nb.length = S ∧ nb.all (fun r => r.length = E))) then
    some (nslForward input_vectors output_vectors noise_vectors)
  else none

/-! ### Structural lemmas about the torch primitives -/

/-- Summing each row of an elementwise product is the batched dot product. -/
theorem sumdim1_tmul (a b : Mat) : sumdim1 (tmul a b) = List.zipWith dot a b := by
  induction a generalizing b with
  | nil => simp [sumdim1, tmul]
  | cons x xs ih =>
    cases b with
    | nil => simp [sumdim1, tmul]
    | cons y ys => simp [sumdim1, tmul, dot] at ih ⊢; exact ih ys

/-- A matrix times the unsqueezed column of a nonempty vector is the column of
row-by-vector dot products. -/
theorem matmul_unsqueeze_row (nb : Mat) (ib : Vec) (h : ib ≠ []) :
    matmul nb (ib.map (fun x => [x])) = nb.map (fun r => [dot r ib]) := by
  obtain ⟨x, t, rfl⟩ := List.exists_cons_of_ne_nil h
  simp [matmul, ncols, col, List.range_succ, List.map_map]
  intro a _
  congr 1
  simp [Function.comp_def]

/-- The composite `torch.bmm(noise, input.unsqueeze(2)).squeeze(2)` computes,
for every batch element, the dot product of each noise row with the input row. -/
theorem squeeze2_bmm_unsqueeze2 (noise : Mat3) (input : Mat)
    (h : ∀ r ∈ input, r ≠ []) :
    squeeze2 (bmm noise (unsqueeze2 input)) =
      List.zipWith (fun nb ib => nb.map (fun r => dot r ib)) noise input := by
  induction noise generalizing input with
  | nil => simp [squeeze2, bmm, unsqueeze2]
  | cons nb ns ih =>
    cases input with
    | nil => simp [squeeze2, bmm, unsqueeze2]
    | cons ib it =>
      have hib : ib ≠ [] := h ib (by simp)
      have hrec := ih it (fun r hr => h r (by simp [hr]))
      simp only [unsqueeze2, List.map_cons, bmm, List.zipWith_cons_cons, squeeze2] at hrec ⊢
      rw [matmul_unsqueeze_row nb ib hib]
      simp only [List.map_map, hrec]
      simp [Function.comp_def]

/-- Mapping over a list is mapping the indexed access over its index range. -/
theorem map_eq_range_getD {α β : Type} (f : α → β) (l : List α) (d : α) :
    l.map f = (List.range l.length).map (fun i => f (l.getD i d)) := by
  apply List.ext_getElem (by simp)
  intro i h1 h2
  simp only [List.getElem_map, List.getElem_range]
  rw [List.getD_eq_getElem l d (by simpa using h1)]

/-- Zipping two lists of length `n` is mapping the indexed accesses over
`range n`. -/
theorem zipWith_eq_range_getD {α β γ : Type} (f : α → β → γ)
    (a : List α) (b : List β) (da : α) (db : β) (n : ℕ)
    (ha : a.length = n) (hb : b.length = n) :
    List.zipWith f a b =
      (List.range n).map (fun i => f (a.getD i da) (b.getD i db)) := by
  apply List.ext_getElem (by simp [ha, hb])
  intro i h1 h2
  have hia : i < a.length := by simp [ha, hb] at h1; omega
  have hib : i < b.length := by simp [ha, hb] at h1; omega
  rw [List.getElem_zipWith, List.getElem_map, List.getElem_range,
    List.getD_eq_getElem a da hia, List.getD_eq_getElem b db hib]

/-! ### Lemmas about `invCDF` -/

/-- An inverse-CDF draw from a point inside `[0, total)` lands strictly inside
the index range of the weight vector. -/
theorem invCDF_lt_length (w : Vec) (u : ℝ) (h0 : 0 ≤ u) (h1 : u < w.sum) :
    invCDF u w < w.length := by
  induction w generalizing u with
  | nil => simp at h1; linarith
  | cons x rest ih =>
    rw [invCDF]
    split
    · simp
    · next hx =>
      have : invCDF (u - x) rest < rest.length :=
        ih (u - x) (by linarith [not_lt.mp hx]) (by simp at h1; linarith)
      simpa using this

/-- Under the all-ones weight vector of length `n`, the inverse CDF sends the
whole interval `[k, k+1)` to index `k`, for every `k < n`: each of the `n`
indices receives an interval of identical length `1` out of `[0, n)`. -/
theorem invCDF_replicate_one (n k : ℕ) (u : ℝ) (hk : k < n)
    (hu0 : (k : ℝ) ≤ u) (hu1 : u < (k : ℝ) + 1) :
    invCDF u (List.replicate n 1) = k := by
  induction k generalizing n u with
  | zero =>
    obtain ⟨m, rfl⟩ := Nat.exists_eq_succ_of_ne_zero (by omega : n ≠ 0)
    rw [List.replicate_succ, invCDF, if_pos (by simpa using hu1)]
  | succ j ih =>
    obtain ⟨m, rfl⟩ := Nat.exists_eq_succ_of_ne_zero (by omega : n ≠ 0)
    have h1 : (1 : ℝ) ≤ u := by
      have hj : (0 : ℝ) ≤ (j : ℝ) := Nat.cast_nonneg j
      push_cast at hu0
      linarith
    rw [List.replicate_succ, invCDF, if_neg (not_lt.mpr h1)]
    have hrec := ih m (u - 1) (by omega) (by push_cast at hu0 ⊢; linarith)
      (by push_cast at hu1 ⊢; linarith)
    omega

/-! ### Claim theorems -/

/-- C1: for every batch of `input_vectors` of shape `(B, E)`, `output_vectors`
of shape `(B, E)` and `noise_vectors` of shape `(B, S, E)`,
`NegativeSamplingLoss.forward` returns the negative of the mean over the batch
of `log(sigmoid(dot(input_vectors[b], output_vectors[b])) + 1e-10)` plus the
sum over `s` of `log(sigmoid(-dot(noise_vectors[b][s], input_vectors[b])) + 1e-10)`. -/
theorem nslForward_closed_form (input output : Mat) (noise : Mat3) (B S E : ℕ)
    (hB : 0 < B) (hE : 0 < E)
    (hi : input.length = B) (ho : output.length = B) (hn : noise.length = B)
    (hiE : ∀ r ∈ input, r.length = E) (hoE : ∀ r ∈ output, r.length = E)
    (hnS : ∀ nb ∈ noise, nb.length = S)
    (hnE : ∀ nb ∈ noise, ∀ r ∈ nb, r.length = E) :
    nslForward input output noise =
      -(((List.range B).map (fun b =>
          Real.log (sigmoid (dot (input.getD b []) (output.getD b [])) + eps)
          + ((List.range S).map (fun s =>
              Real.log (sigmoid (-(dot ((noise.getD b []).getD s [])
                (input.getD b []))) + eps))).sum)).sum / B) := by
  have hne : ∀ r ∈ input, r ≠ [] := by
    intro r hr hnil
    have := hiE r hr
    rw [hnil] at this
    simp at this
    omega
  simp only [nslForward]
  rw [sumdim1_tmul, squeeze2_bmm_unsqueeze2 _ _ hne]
  have hX : List.zipWith (· + ·)
      ((List.zipWith dot input output).map logSigEps)
      (sumdim1 ((List.zipWith (fun nb ib => nb.map (fun r => dot r ib)) noise input).map
        (fun r => r.map (fun x => logSigEps (-x))))) =
      (List.range B).map (fun b =>
        Real.log (sigmoid (dot (input.getD b []) (output.getD b [])) + eps)
        + ((List.range S).map (fun s =>
            Real.log (sigmoid (-(dot ((noise.getD b []).getD s [])
              (input.getD b []))) + eps))).sum) := by
    apply List.ext_getElem
    · simp [sumdim1, hi, ho, hn]
    · intro i h1 h2
      have hiB : i < B := by simpa using h2
      have hii : i < input.length := by omega
      have hio : i < output.length := by omega
      have hin : i < noise.length := by omega
      simp only [sumdim1, List.getElem_zipWith, List.getElem_map, List.getElem_range]
      rw [List.getD_eq_getElem input [] hii, List.getD_eq_getElem output [] hio,
        List.getD_eq_getElem noise [] hin]
      congr 1
      rw [List.map_map, map_eq_range_getD _ (noise[i]) ([] : Vec),
        hnS noise[i] (List.getElem_mem hin)]
      simp [Function.comp_def, logSigEps]
  rw [hX, tmean]
  simp [hi, ho, hn]

/-- C3: in `NegativeSamplingLoss.forward` the batched dot products are correct
and the sign convention holds: `pos_scores[b]` is the dot product of
`input_vectors[b]` with `output_vectors[b]` and enters the loss inside
`sigmoid` with positive sign, while `neg_scores[b][s]` is the dot product of
`noise_vectors[b][s]` with `input_vectors[b]` and enters the loss inside
`sigmoid` with negative sign. -/
theorem nsl_scores_and_signs (input output : Mat) (noise : Mat3) (B S E : ℕ)
    (hE : 0 < E)
    (hi : input.length = B) (ho : output.length = B) (hn : noise.length = B)
    (hiE : ∀ r ∈ input, r.length = E)
    (hnS : ∀ nb ∈ noise, nb.length = S)
    (b s : ℕ) (hb : b < B) (hs : s < S) :
    (sumdim1 (tmul input output)).getD b 0 =
        dot (input.getD b []) (output.getD b [])
      ∧ ((squeeze2 (bmm noise (unsqueeze2 input))).getD b []).getD s 0 =
        dot ((noise.getD b []).getD s []) (input.getD b [])
      ∧ nslForward input output noise =
        -(tmean (List.zipWith
            (fun p nrow => Real.log (sigmoid p + eps)
              + (nrow.map (fun q => Real.log (sigmoid (-q) + eps))).sum)
            (sumdim1 (tmul input output))
            (squeeze2 (bmm noise (unsqueeze2 input))))) := by
  have hne : ∀ r ∈ input, r ≠ [] := by
    intro r hr hnil
    have := hiE r hr
    rw [hnil] at this
    simp at this
    omega
  have hii : b < input.length := by omega
  have hio : b < output.length := by omega
  have hin : b < noise.length := by omega
  refine ⟨?_, ?_, ?_⟩
  · rw [sumdim1_tmul,
      List.getD_eq_getElem _ 0 (by simp; omega),
      List.getElem_zipWith,
      List.getD_eq_getElem input [] hii, List.getD_eq_getElem output [] hio]
  · rw [squeeze2_bmm_unsqueeze2 _ _ hne,
      List.getD_eq_getElem _ ([] : Vec) (by simp; omega),
      List.getElem_zipWith,
      List.getD_eq_getElem noise [] hin, List.getD_eq_getElem input [] hii]
    have hsS : s < (noise[b].map (fun r => dot r input[b])).length := by
      simp [hnS noise[b] (List.getElem_mem hin)]; omega
    rw [List.getD_eq_getElem _ 0 hsS, List.getElem_map,
      List.getD_eq_getElem noise[b] [] (by simpa using hsS)]
  · simp only [nslForward]
    rw [show sumdim1 ((squeeze2 (bmm noise (unsqueeze2 input))).map
          (fun r => r.map (fun x => logSigEps (-x)))) =
        (squeeze2 (bmm noise (unsqueeze2 input))).map
          (fun nrow => (nrow.map (fun q => logSigEps (-q))).sum) by
      simp [sumdim1, List.map_map]]
    rw [List.zipWith_map]
    simp [logSigEps]

/-- The literal added inside the logarithms is positive. -/
theorem eps_pos : 0 < eps := by norm_num [eps]

/-- The sigmoid takes positive values everywhere. -/
theorem sigmoid_pos (x : ℝ) : 0 < sigmoid x := by
  rw [sigmoid]
  positivity

/-- At `x = 0` the sigmoid is exactly `1/2`. -/
theorem sigmoid_zero : sigmoid 0 = 1 / 2 := by
  rw [sigmoid]
  norm_num [Real.exp_zero]

/-- C2 counterexample: at score `x = 0`, the value the code contributes to the
loss, `log(sigmoid(0) + 1e-10)`, differs from `log(sigmoid(0))`: the added
term does change the mathematical value of the function being computed. -/
theorem logSigEps_ne_log_sigmoid_at_zero : logSigEps 0 ≠ Real.log (sigmoid 0) := by
  rw [logSigEps, sigmoid_zero]
  exact (Real.log_lt_log (by norm_num) (by norm_num [eps])).ne'

/-- C2 amended: for every real score `x`, the value the loss contributes is
`log(sigmoid(x) + 1e-10)`, which is strictly greater than `log(sigmoid(x))`:
the added `1e-10` term changes the mathematical value of the function (its
role is to keep the floating-point argument of `log` away from zero, at the
price of a small bias). -/
theorem logSigEps_value_and_bias (x : ℝ) :
    logSigEps x = Real.log (sigmoid x + eps)
      ∧ Real.log (sigmoid x) < logSigEps x := by
  refine ⟨rfl, ?_⟩
  rw [logSigEps]
  exact Real.log_lt_log (sigmoid_pos x) (lt_add_of_pos_right _ eps_pos)

/-- C4: `SkipGramNeg.forward_noise` draws its `batch_size * n_samples`
noise-word indices by a multinomial draw with replacement from the model's
noise distribution: the sampled index list has length `batch_size * n_samples`,
each of its entries is an independent inverse-CDF draw from the same full
weight vector, every drawn index is a valid position in that weight vector,
and the rows looked up by `forward_noise` are exactly those of the sampled
indices. -/
theorem forward_noise_multinomial (m : SkipGramNeg) (batch_size n_samples : ℕ)
    (ω : ℕ → ℝ) (hω : ∀ k, 0 ≤ ω k ∧ ω k < m.effectiveNoiseDist.sum) :
    (m.forward_noise batch_size n_samples ω).1 =
        (embedLookup m.out_embed
          (multinomial m.effectiveNoiseDist (batch_size * n_samples) ω)).bind
          (fun rows => view3 rows batch_size n_samples m.n_embed)
      ∧ (multinomial m.effectiveNoiseDist (batch_size * n_samples) ω).length =
          batch_size * n_samples
      ∧ multinomial m.effectiveNoiseDist (batch_size * n_samples) ω =
          (List.range (batch_size * n_samples)).map
            (fun k => invCDF (ω k) m.effectiveNoiseDist)
      ∧ ∀ k, k < batch_size * n_samples →
          (multinomial m.effectiveNoiseDist (batch_size * n_samples) ω).getD k 0 =
              invCDF (ω k) m.effectiveNoiseDist
            ∧ invCDF (ω k) m.effectiveNoiseDist < m.effectiveNoiseDist.length := by
  refine ⟨rfl, by simp [multinomial], rfl, ?_⟩
  intro k hk
  constructor
  · rw [multinomial, List.getD_eq_getElem _ 0 (by simpa using hk),
      List.getElem_map, List.getElem_range]
  · exact invCDF_lt_length _ _ (hω k).1 (hω k).2

/-- C5: for word indices all lying in `[0, n_vocab)`, `forward_input` returns
exactly the corresponding rows of the `in_embed` table and `forward_output`
exactly the corresponding rows of the `out_embed` table. -/
theorem forward_lookup_rows (m : SkipGramNeg) (words : List ℕ)
    (hin : m.in_embed.length = m.n_vocab) (hout : m.out_embed.length = m.n_vocab)
    (hw : ∀ w ∈ words, w < m.n_vocab) :
    (m.forward_input words).1 = some (words.map (fun w => m.in_embed.getD w []))
      ∧ (m.forward_output words).1 =
        some (words.map (fun w => m.out_embed.getD w [])) := by
  constructor
  · simp only [SkipGramNeg.forward_input, embedLookup, hin]
    rw [if_pos]
    simp only [List.all_eq_true, decide_eq_true_eq]
    exact hw
  · simp only [SkipGramNeg.forward_output, embedLookup, hout]
    rw [if_pos]
    simp only [List.all_eq_true, decide_eq_true_eq]
    exact hw

/-- C9: when the model was constructed with `noise_dist = None`,
`forward_noise` substitutes the constant all-ones weight vector of length
`n_vocab`; under it every word index `k < n_vocab` has normalized weight
`1 / n_vocab` and receives the inverse-CDF interval `[k, k+1)` of identical
length `1`, so every index is drawn with equal probability. -/
theorem forward_noise_uniform_when_none (m : SkipGramNeg)
    (h : m.noise_dist = none) :
    m.effectiveNoiseDist = List.replicate m.n_vocab 1
      ∧ (∀ i, i < m.n_vocab →
          m.effectiveNoiseDist.getD i 0 / m.effectiveNoiseDist.sum =
            1 / m.n_vocab)
      ∧ (∀ k, k < m.n_vocab → ∀ u : ℝ, (k : ℝ) ≤ u → u < (k : ℝ) + 1 →
          invCDF u m.effectiveNoiseDist = k) := by
  have hd : m.effectiveNoiseDist = List.replicate m.n_vocab 1 := by
    rw [SkipGramNeg.effectiveNoiseDist, h]
  refine ⟨hd, ?_, ?_⟩
  · intro i hi
    rw [hd, List.getD_eq_getElem _ 0 (by simpa using hi)]
    simp [List.sum_replicate]
  · intro k hk u hu0 hu1
    rw [hd]
    exact invCDF_replicate_one m.n_vocab k u hk hu0 hu1

/-- The effective noise distribution indexes the vocabulary as soon as a
supplied `noise_dist` does. -/
theorem effectiveNoiseDist_length (m : SkipGramNeg)
    (hd : ∀ d, m.noise_dist = some d → d.length = m.n_vocab) :
    m.effectiveNoiseDist.length = m.n_vocab := by
  rw [SkipGramNeg.effectiveNoiseDist]
  cases hnd : m.noise_dist with
  | none => simp
  | some d => exact hd d hnd

/-- With in-range uniform draws, the embedding lookup inside `forward_noise`
succeeds and every looked-up row has length `n_embed`. -/
theorem forward_noise_lookup_some (m : SkipGramNeg) (batch_size n_samples : ℕ)
    (ω : ℕ → ℝ)
    (hout : m.out_embed.length = m.n_vocab)
    (houtE : ∀ r ∈ m.out_embed, r.length = m.n_embed)
    (hd : ∀ d, m.noise_dist = some d → d.length = m.n_vocab)
    (hω : ∀ k, 0 ≤ ω k ∧ ω k < m.effectiveNoiseDist.sum) :
    (m.forward_noise batch_size n_samples ω).1 =
      some (reshape3
        ((multinomial m.effectiveNoiseDist (batch_size * n_samples) ω).map
          (fun w => m.out_embed.getD w []))
        batch_size n_samples) := by
  have hlen : m.effectiveNoiseDist.length = m.n_vocab := effectiveNoiseDist_length m hd
  have hrange : ∀ w ∈ multinomial m.effectiveNoiseDist (batch_size * n_samples) ω,
      w < m.n_vocab := by
    intro w hwmem
    rw [multinomial] at hwmem
    obtain ⟨k, _, rfl⟩ := List.mem_map.mp hwmem
    rw [← hlen]
    exact invCDF_lt_length _ _ (hω k).1 (hω k).2
  simp only [SkipGramNeg.forward_noise, embedLookup, hout]
  rw [if_pos (by simp only [List.all_eq_true, decide_eq_true_eq]; exact hrange)]
  simp only [Option.some_bind, view3]
  rw [if_pos]
  constructor
  · simp [multinomial]
  · simp only [List.all_eq_true, decide_eq_true_eq]
    intro r hr
    obtain ⟨w, hwmem, rfl⟩ := List.mem_map.mp hr
    have hwv : w < m.out_embed.length := hout ▸ hrange w hwmem
    rw [List.getD_eq_getElem _ [] hwv]
    exact houtE _ (List.getElem_mem hwv)

/-- C6: no operation raises an error of its own: for every well-shaped,
in-range input, `forward_input`, `forward_output`, `forward_noise` and the
loss forward all return a defined (`some`) result; the only `none` branches of
the embedding are the numeric library's checks for out-of-range indices and
mismatched shapes. -/
theorem forward_no_error (m : SkipGramNeg) (words owords : List ℕ)
    (batch_size n_samples : ℕ) (ω : ℕ → ℝ)
    (input output : Mat) (noise : Mat3) (B S E : ℕ)
    (hin : m.in_embed.length = m.n_vocab)
    (hout : m.out_embed.length = m.n_vocab)
    (houtE : ∀ r ∈ m.out_embed, r.length = m.n_embed)
    (hd : ∀ d, m.noise_dist = some d → d.length = m.n_vocab)
    (hw : ∀ w ∈ words, w < m.n_vocab) (how : ∀ w ∈ owords, w < m.n_vocab)
    (hω : ∀ k, 0 ≤ ω k ∧ ω k < m.effectiveNoiseDist.sum)
    (hB : 0 < B)
    (hi : input.length = B) (ho : output.length = B) (hn : noise.length = B)
    (hiE : ∀ r ∈ input, r.length = E) (hoE : ∀ r ∈ output, r.length = E)
    (hnS : ∀ nb ∈ noise, nb.length = S)
    (hnE : ∀ nb ∈ noise, ∀ r ∈ nb, r.length = E) :
    (m.forward_input words).1.isSome
      ∧ (m.forward_output owords).1.isSome
      ∧ (m.forward_noise batch_size n_samples ω).1.isSome
      ∧ (nslForwardChecked input output noise).isSome := by
  refine ⟨?_, ?_, ?_, ?_⟩
  · rw [(forward_lookup_rows m words hin hout hw).1]
    rfl
  · rw [(forward_lookup_rows m owords hin hout how).2]
    rfl
  · rw [forward_noise_lookup_some m batch_size n_samples ω hout houtE hd hω]
    rfl
  · obtain ⟨r0, irest, rfl⟩ : ∃ r0 irest, input = r0 :: irest := by
      cases input with
      | nil => simp at hi; omega
      | cons a l => exact ⟨a, l, rfl⟩
    obtain ⟨n0, nrest, rfl⟩ : ∃ n0 nrest, noise = n0 :: nrest := by
      cases noise with
      | nil => simp at hn; omega
      | cons a l => exact ⟨a, l, rfl⟩
    have hE0 : r0.length = E := hiE r0 (by simp)
    have hS0 : n0.length = S := hnS n0 (by simp)
    rw [nslForwardChecked]
    rw [if_pos]
    · rfl
    · simp only [List.headD_cons, List.all_eq_true, decide_eq_true_eq]
      refine ⟨?_, ?_, ?_, ?_, ?_⟩
      · intro r hr
        rw [hiE r hr, hE0]
      · omega
      · intro r hr
        rw [hoE r hr, hE0]
      · simpa [hi] using hn
      · intro nb hnb
        refine ⟨by rw [hnS nb hnb, hS0], ?_⟩
        intro r hr
        rw [hnE nb hnb r hr, hE0]

/-- C7: none of the forward operations mutates model state: each call leaves
behind exactly the `SkipGramNeg` (resp. `NegativeSamplingLoss`) state it
received, so `n_vocab`, `n_embed`, `noise_dist` and the two weight tables are
unchanged; in `forward_noise` the local `noise_dist` never overwrites the
attribute. -/
theorem forward_preserves_state (m : SkipGramNeg) (l : NegativeSamplingLoss)
    (words owords : List ℕ) (batch_size n_samples : ℕ) (ω : ℕ → ℝ)
    (input output : Mat) (noise : Mat3) :
    (m.forward_input words).2 = m
      ∧ (m.forward_output owords).2 = m
      ∧ (m.forward_noise batch_size n_samples ω).2 = m
      ∧ (m.forward_noise batch_size n_samples ω).2.n_vocab = m.n_vocab
      ∧ (m.forward_noise batch_size n_samples ω).2.n_embed = m.n_embed
      ∧ (m.forward_noise batch_size n_samples ω).2.noise_dist = m.noise_dist
      ∧ (m.forward_noise batch_size n_samples ω).2.in_embed = m.in_embed
      ∧ (m.forward_noise batch_size n_samples ω).2.out_embed = m.out_embed
      ∧ (l.forward input output noise).2 = l :=
  ⟨rfl, rfl, rfl, rfl, rfl, rfl, rfl, rfl, rfl⟩

/-- C10: `NegativeSamplingLoss.forward` is deterministic: two calls on
pairwise equal inputs return equal loss values. -/
theorem nslForward_deterministic (input output input2 output2 : Mat)
    (noise noise2 : Mat3)
    (h1 : input = input2) (h2 : output = output2) (h3 : noise = noise2) :
    nslForward input output noise = nslForward input2 output2 noise2 := by
  rw [h1, h2, h3]

/-- Slice `b` of a row-major regrouping is the row of `n_samples`-indexed
accesses. -/
theorem reshape3_getD_row (rows : Mat) (B S b : ℕ) (hb : b < B) :
    (reshape3 rows B S).getD b [] =
      (List.range S).map (fun s => rows.getD (b * S + s) []) := by
  rw [reshape3, List.getD_eq_getElem _ [] (by simpa using hb),
    List.getElem_map, List.getElem_range]

/-- Entry `[b][s]` of a row-major regrouping is row `b * S + s` of the flat
row list. -/
theorem reshape3_getD (rows : Mat) (B S b s : ℕ) (hb : b < B) (hs : s < S) :
    ((reshape3 rows B S).getD b []).getD s [] = rows.getD (b * S + s) [] := by
  rw [reshape3_getD_row rows B S b hb,
    List.getD_eq_getElem _ [] (by simpa using hs),
    List.getElem_map, List.getElem_range]

/-- C8: for `batch_size ≥ 1` and `n_samples ≥ 1`, `forward_noise` returns a
tensor of shape `(batch_size, n_samples, n_embed)` whose slice `[b][s]` is the
`out_embed` row of sampled word index number `b * n_samples + s` — the
sampled rows in sampling order — and each sampled index is a valid vocabulary
index. -/
theorem forward_noise_shape_and_rows (m : SkipGramNeg)
    (batch_size n_samples : ℕ) (ω : ℕ → ℝ)
    (hB : 1 ≤ batch_size) (hS : 1 ≤ n_samples)
    (hout : m.out_embed.length = m.n_vocab)
    (houtE : ∀ r ∈ m.out_embed, r.length = m.n_embed)
    (hd : ∀ d, m.noise_dist = some d → d.length = m.n_vocab)
    (hω : ∀ k, 0 ≤ ω k ∧ ω k < m.effectiveNoiseDist.sum) :
    ∃ v, (m.forward_noise batch_size n_samples ω).1 = some v
      ∧ v.length = batch_size
      ∧ (∀ b, b < batch_size → (v.getD b []).length = n_samples)
      ∧ (∀ b s, b < batch_size → s < n_samples →
          (multinomial m.effectiveNoiseDist (batch_size * n_samples) ω).getD
              (b * n_samples + s) 0 < m.n_vocab
            ∧ (v.getD b []).getD s [] =
              m.out_embed.getD
                ((multinomial m.effectiveNoiseDist (batch_size * n_samples) ω).getD
                  (b * n_samples + s) 0) []
            ∧ ((v.getD b []).getD s []).length = m.n_embed) := by
  have hlen : m.effectiveNoiseDist.length = m.n_vocab := effectiveNoiseDist_length m hd
  refine ⟨_, forward_noise_lookup_some m batch_size n_samples ω hout houtE hd hω,
    by simp [reshape3], ?_, ?_⟩
  · intro b hb
    rw [reshape3_getD_row _ _ _ _ hb]
    simp
  · intro b s hb hs
    have hidx : b * n_samples + s < batch_size * n_samples := by
      calc b * n_samples + s < b * n_samples + n_samples := by omega
        _ = (b + 1) * n_samples := by ring
        _ ≤ batch_size * n_samples := Nat.mul_le_mul_right n_samples (by omega)
    have hwlen : (multinomial m.effectiveNoiseDist (batch_size * n_samples) ω).length =
        batch_size * n_samples := by simp [multinomial]
    have hwk : (multinomial m.effectiveNoiseDist (batch_size * n_samples) ω).getD
        (b * n_samples + s) 0 = invCDF (ω (b * n_samples + s)) m.effectiveNoiseDist := by
      rw [multinomial, List.getD_eq_getElem _ 0 (by simpa using hidx),
        List.getElem_map, List.getElem_range]
    have hwv : (multinomial m.effectiveNoiseDist (batch_size * n_samples) ω).getD
        (b * n_samples + s) 0 < m.n_vocab := by
      rw [hwk, ← hlen]
      exact invCDF_lt_length _ _ (hω _).1 (hω _).2
    have hslice : ((reshape3
        ((multinomial m.effectiveNoiseDist (batch_size * n_samples) ω).map
          (fun w => m.out_embed.getD w []))
        batch_size n_samples).getD b []).getD s [] =
        m.out_embed.getD
          ((multinomial m.effectiveNoiseDist (batch_size * n_samples) ω).getD
            (b * n_samples + s) 0) [] := by
      rw [reshape3_getD _ _ _ _ _ hb hs,
        List.getD_eq_getElem _ [] (by rw [List.length_map, hwlen]; exact hidx),
        List.getElem_map, List.getD_eq_getElem _ 0 (by rw [hwlen]; exact hidx)]
    refine ⟨hwv, hslice, ?_⟩
    rw [hslice, List.getD_eq_getElem _ [] (by rw [hout]; exact hwv)]
    exact houtE _ (List.getElem_mem _)

/-! ### Concrete instantiations -/

/-- A concrete one-word, one-dimensional model used to instantiate the
theorems above. -/
def wModel : SkipGramNeg :=
  { n_vocab := 1, n_embed := 1, noise_dist := none
    in_embed := [[1]], out_embed := [[2]] }

/-- The uniform draws of the concrete model stay inside `[0, total)`. -/
theorem wModel_stream_ok :
    ∀ k : ℕ, 0 ≤ (fun _ : ℕ => (0 : ℝ)) k
      ∧ (fun _ : ℕ => (0 : ℝ)) k < wModel.effectiveNoiseDist.sum := by
  intro k
  refine ⟨le_refl 0, ?_⟩
  norm_num [show wModel.effectiveNoiseDist = [1] from rfl]

/-- C1 at a concrete `1 × 1 × 1` batch. -/
theorem nslForward_closed_form_witness :
    nslForward [[1]] [[2]] [[[3]]] =
      -(((List.range 1).map (fun b =>
          Real.log (sigmoid (dot (([[1]] : Mat).getD b []) (([[2]] : Mat).getD b [])) + eps)
          + ((List.range 1).map (fun s =>
              Real.log (sigmoid (-(dot ((([[[3]]] : Mat3).getD b []).getD s [])
                (([[1]] : Mat).getD b []))) + eps))).sum)).sum / (1 : ℕ)) :=
  nslForward_closed_form [[1]] [[2]] [[[3]]] 1 1 1 Nat.one_pos Nat.one_pos
    rfl rfl rfl (by simp) (by simp) (by simp) (by simp)

/-- C3 at a concrete `1 × 1 × 1` batch and indices `b = s = 0`. -/
theorem nsl_scores_and_signs_witness :
    (sumdim1 (tmul [[1]] [[2]])).getD 0 0 =
        dot (([[1]] : Mat).getD 0 []) (([[2]] : Mat).getD 0 [])
      ∧ ((squeeze2 (bmm [[[3]]] (unsqueeze2 [[1]]))).getD 0 []).getD 0 0 =
        dot ((([[[3]]] : Mat3).getD 0 []).getD 0 []) (([[1]] : Mat).getD 0 [])
      ∧ nslForward [[1]] [[2]] [[[3]]] =
        -(tmean (List.zipWith
            (fun p nrow => Real.log (sigmoid p + eps)
              + (nrow.map (fun q => Real.log (sigmoid (-q) + eps))).sum)
            (sumdim1 (tmul [[1]] [[2]]))
            (squeeze2 (bmm [[[3]]] (unsqueeze2 [[1]]))))) :=
  nsl_scores_and_signs [[1]] [[2]] [[[3]]] 1 1 1 Nat.one_pos
    rfl rfl rfl (by simp) (by simp) 0 0 Nat.one_pos Nat.one_pos

/-- C5 at the concrete model and word list `[0]`. -/
theorem forward_lookup_rows_witness :
    (wModel.forward_input [0]).1 =
        some ([0].map (fun w => wModel.in_embed.getD w []))
      ∧ (wModel.forward_output [0]).1 =
        some ([0].map (fun w => wModel.out_embed.getD w [])) :=
  forward_lookup_rows wModel [0] rfl rfl (by simp [wModel])

/-- C10 at a concrete pair of equal inputs. -/
theorem nslForward_deterministic_witness :
    nslForward [[1]] [[2]] [[[3]]] = nslForward [[1]] [[2]] [[[3]]] :=
  nslForward_deterministic [[1]] [[2]] [[1]] [[2]] [[[3]]] [[[3]]] rfl rfl rfl

/-- C4 at the concrete model, one batch element, one sample, constant draws. -/
theorem forward_noise_multinomial_witness :
    (wModel.forward_noise 1 1 (fun _ => 0)).1 =
        (embedLookup wModel.out_embed
          (multinomial wModel.effectiveNoiseDist (1 * 1) (fun _ => 0))).bind
          (fun rows => view3 rows 1 1 wModel.n_embed)
      ∧ (multinomial wModel.effectiveNoiseDist (1 * 1) (fun _ => 0)).length = 1 * 1
      ∧ multinomial wModel.effectiveNoiseDist (1 * 1) (fun _ => 0) =
          (List.range (1 * 1)).map
            (fun k => invCDF ((fun _ => (0 : ℝ)) k) wModel.effectiveNoiseDist)
      ∧ ∀ k, k < 1 * 1 →
          (multinomial wModel.effectiveNoiseDist (1 * 1) (fun _ => 0)).getD k 0 =
              invCDF ((fun _ => (0 : ℝ)) k) wModel.effectiveNoiseDist
            ∧ invCDF ((fun _ => (0 : ℝ)) k) wModel.effectiveNoiseDist <
              wModel.effectiveNoiseDist.length :=
  forward_noise_multinomial wModel 1 1 (fun _ => 0) wModel_stream_ok

/-- C6 at the concrete model and a concrete `1 × 1 × 1` batch. -/
theorem forward_no_error_witness :
    (wModel.forward_input [0]).1.isSome
      ∧ (wModel.forward_output [0]).1.isSome
      ∧ (wModel.forward_noise 1 1 (fun _ => 0)).1.isSome
      ∧ (nslForwardChecked [[1]] [[2]] [[[3]]]).isSome :=
  forward_no_error wModel [0] [0] 1 1 (fun _ => 0) [[1]] [[2]] [[[3]]] 1 1 1
    rfl rfl (by simp [wModel]) (by simp [wModel]) (by simp [wModel])
    (by simp [wModel]) wModel_stream_ok Nat.one_pos
    rfl rfl rfl (by simp) (by simp) (by simp) (by simp)

/-- C8 at the concrete model, one batch element and one sample. -/
theorem forward_noise_shape_and_rows_witness :
    ∃ v, (wModel.forward_noise 1 1 (fun _ => 0)).1 = some v
      ∧ v.length = 1
      ∧ (∀ b, b < 1 → (v.getD b []).length = 1)
      ∧ (∀ b s, b < 1 → s < 1 →
          (multinomial wModel.effectiveNoiseDist (1 * 1) (fun _ => 0)).getD
              (b * 1 + s) 0 < wModel.n_vocab
            ∧ (v.getD b []).getD s [] =
              wModel.out_embed.getD
                ((multinomial wModel.effectiveNoiseDist (1 * 1) (fun _ => 0)).getD
                  (b * 1 + s) 0) []
            ∧ ((v.getD b []).getD s []).length = wModel.n_embed) :=
  forward_noise_shape_and_rows wModel 1 1 (fun _ => 0) (le_refl 1) (le_refl 1)
    rfl (by simp [wModel]) (by simp [wModel]) wModel_stream_ok

/-- C9 at the concrete model constructed with `noise_dist = None`. -/
theorem forward_noise_uniform_when_none_witness :
    wModel.effectiveNoiseDist = List.replicate wModel.n_vocab 1
      ∧ (∀ i, i < wModel.n_vocab →
          wModel.effectiveNoiseDist.getD i 0 / wModel.effectiveNoiseDist.sum =
            1 / wModel.n_vocab)
      ∧ (∀ k, k < wModel.n_vocab → ∀ u : ℝ, (k : ℝ) ≤ u → u < (k : ℝ) + 1 →
          invCDF u wModel.effectiveNoiseDist = k) :=
  forward_noise_uniform_when_none wModel rfl
end SkipGram
